import Mathlib

/-!
Verification of the move-selection strategies of `homemade.py` (BizarrioFish).

The development shallowly embeds the `WorstFish` engine (lines 192-241) and
the strategy branches of `TestFish.search` (lines 117-191).  Everything the
selector reads from the python-chess library and from the stockfish engine
process is modelled as an oracle record `Game`; the selector logic itself
(time slicing, the scoring loop with its tie tracking, the capture/check/other
bucket partition and the final choice) is translated statement by statement
from the source.  `random.choice(xs)` is modelled by an extra argument `r`
supplying the drawn index, reduced modulo the length of the sequence so that
every element is reachable; on an empty sequence it raises `IndexError`, as in
Python.
-/

/-- A chess move.  The selector treats moves as opaque values obtained from
`board.legal_moves`; they are represented by natural numbers. -/
abbrev Move := Nat

/-- A full board position (piece placement, side to move, rights, counters).
The selector reads positions only through the `Game` oracle below, so a
position is an opaque identifier. -/
abbrev Position := Nat

/-- `chess.Board`: the current position together with the stack of previous
positions that `board.push` saves and `board.pop` restores. -/
structure Board where
  pos : Position
  stack : List Position
deriving DecidableEq

/-- The behaviour of the external collaborators, modelled as oracles:
`legalMoves` is `board.legal_moves`, `isCapture p m` is `board.is_capture(m)`
asked at position `p`, `applyMove p m` is the position reached by
`board.push(m)` from `p`, `isCheck` is `board.is_check()`, `engineEval p t` is
the `result["score"].relative` value returned by `stockfish.analyse` on `p`
with time limit `t` (the score from the point of view of the side to move in
`p`, i.e. of the opponent of whoever just moved), and `engineBest` is
`stockfish.get_best_move()`, `none` when the engine reports no move. -/
structure Game (α : Type) where
  legalMoves : Position → List Move
  isCapture : Position → Move → Bool
  applyMove : Position → Move → Position
  isCheck : Position → Bool
  engineEval : Position → ℚ → α
  engineBest : Position → Option Move

/-- `board.push(m)`: save the current position on the stack and apply `m`. -/
def Board.push (G : Game α) (b : Board) (m : Move) : Board :=
  ⟨G.applyMove b.pos m, b.pos :: b.stack⟩

/-- `board.pop()`: restore the most recently saved position.  python-chess
raises on an empty stack; the selector only ever pops immediately after a
push, so that case is unreachable and the board is returned unchanged. -/
def Board.pop (b : Board) : Board :=
  match b.stack with
  | p :: rest => ⟨p, rest⟩
  | [] => b

/-- Python errors the strategies can raise, together with the `NoLegalMoves`
error kind named by the specification (which no code path raises):
`indexError` is `random.choice` applied to an empty sequence, `typeError` is
`"BMOVE: " + bmove` when `get_best_move` returns `None`. -/
inductive PyErr where
  | indexError
  | typeError
  | noLegalMoves
deriving DecidableEq

instance [DecidableEq ε] [DecidableEq α] : DecidableEq (Except ε α) := fun x y =>
  match x, y with
  | .ok a, .ok b =>
      if h : a = b then .isTrue (by rw [h]) else .isFalse (fun hc => h (Except.ok.inj hc))
  | .error a, .error b =>
      if h : a = b then .isTrue (by rw [h]) else .isFalse (fun hc => h (Except.error.inj hc))
  | .ok _, .error _ => .isFalse (fun hc => Except.noConfusion hc)
  | .error _, .ok _ => .isFalse (fun hc => Except.noConfusion hc)

/-- `random.choice(xs)`: IndexError on an empty sequence, otherwise the
element at a uniformly drawn index, supplied here as `r` and reduced modulo
the length so that every index is reachable. -/
def choice (xs : List α) (r : Nat) : Except PyErr α :=
  match xs with
  | [] => .error .indexError
  | x :: rest => .ok ((x :: rest).get ⟨r % (x :: rest).length, Nat.mod_lt r (Nat.succ_pos rest.length)⟩)

/-- The `timeLeft` argument of `search`: either a `chess.engine.Limit` object
or a number of milliseconds on the clock (the `type(timeLeft) !=
chess.engine.Limit` test in the source distinguishes the two). -/
inductive TimeLeft where
  | limit
  | clock (ms : ℚ)

/-- Lines 204-209 of `WorstFish.search` (and 157-162 of `TestFish.search`):
the per-move time slice.  The baseline is `searchTime = 0.1`; when `timeLeft`
is not a `Limit` it is divided by 1000 (milliseconds to seconds) and, when
`len(legalMoves) * searchTime` exceeds `timeLeft / 10`, the slice shrinks to
`(timeLeft / 10) / len(legalMoves)`. -/
def searchTimeFor (timeLeft : TimeLeft) (n : Nat) : ℚ :=
  match timeLeft with
  | .limit => 1/10
  | .clock ms =>
      let t := ms / 1000
      if (n : ℚ) * (1/10) > t / 10 then (t / 10) / n else 1/10

/-- The time limit that `evaluate` hands to the engine:
`stockfish.analyse(board, chess.engine.Limit(time = timeLimit - 0.01))`. -/
def analyseLimit (timeLimit : ℚ) : ℚ := timeLimit - 1/100

/-- `WorstFish.evaluate(board, timeLimit)` (lines 198-201; `TestFish.evaluate`
at lines 121-124 is the same code): one `analyse` round trip whose result is
`result["score"].relative`, the score from the perspective of the side to move
in `board`.  The time limit is forwarded as `timeLimit - 0.01`, with no
clamping or rejection of non-positive values. -/
def evaluate (G : Game α) (p : Position) (timeLimit : ℚ) : α :=
  G.engineEval p (analyseLimit timeLimit)

/-- A legal move together with the `move.isCapture` / `move.isCheck`
attributes the scoring loop attaches to it (lines 213 and 215). -/
structure Tagged where
  mv : Move
  isCapture : Bool
  isCheck : Bool
deriving DecidableEq

/-- The state of the scoring loop of `WorstFish.search` (lines 210-222):
`worstEvaluation`, `worstMoves`, and the board being mutated and restored. -/
structure ScanState (α : Type) where
  worstEvaluation : Option α
  worstMoves : List Tagged
  board : Board

/-- The tag record the loop attaches to candidate `m` of position `p`:
`isCapture` is computed on `p` before the push (line 213), `isCheck` on the
position reached after the push (line 215). -/
def tagOf (G : Game α) (p : Position) (m : Move) : Tagged :=
  ⟨m, G.isCapture p m, G.isCheck (G.applyMove p m)⟩

/-- One iteration of the scoring loop (lines 212-222): record
`move.isCapture` on the current board, push the move, record `move.isCheck`
on the resulting board, evaluate the resulting position with the per-move
slice, update the running worst (`worstEvaluation is None or worstEvaluation <
evaluation` replaces the tied set, `worstEvaluation == evaluation` appends,
anything else leaves it alone), then pop the board. -/
def scoreStep [LinearOrder α] (G : Game α) (searchTime : ℚ) (st : ScanState α) (move : Move) :
    ScanState α :=
  let isCap := G.isCapture st.board.pos move
  let b1 := st.board.push G move
  let isChk := G.isCheck b1.pos
  let evaluation := evaluate G b1.pos searchTime
  let tagged : Tagged := ⟨move, isCap, isChk⟩
  match st.worstEvaluation with
  | none => { worstEvaluation := some evaluation, worstMoves := [tagged], board := b1.pop }
  | some w =>
      if w < evaluation then
        { worstEvaluation := some evaluation, worstMoves := [tagged], board := b1.pop }
      else if w = evaluation then
        { worstEvaluation := some w, worstMoves := st.worstMoves ++ [tagged], board := b1.pop }
      else
        { worstEvaluation := some w, worstMoves := st.worstMoves, board := b1.pop }

/-- The whole scoring loop over the legal moves (lines 210-222). -/
def scoreLoop [LinearOrder α] (G : Game α) (searchTime : ℚ) (b : Board) (moves : List Move) :
    ScanState α :=
  moves.foldl (scoreStep G searchTime) ⟨none, [], b⟩

/-- One iteration of the classification loop (lines 226-232): append the move
to `worstCaptures` when `move.isCapture`, else to `worstChecks` when
`move.isCheck`, else to `worstOther`. -/
def bucketStep (acc : List Tagged × List Tagged × List Tagged) (t : Tagged) :
    List Tagged × List Tagged × List Tagged :=
  if t.isCapture then (acc.1 ++ [t], acc.2.1, acc.2.2)
  else if t.isCheck then (acc.1, acc.2.1 ++ [t], acc.2.2)
  else (acc.1, acc.2.1, acc.2.2 ++ [t])

/-- Lines 223-232: the partition of `worstMoves` into `(worstCaptures,
worstChecks, worstOther)`. -/
def buckets (ms : List Tagged) : List Tagged × List Tagged × List Tagged :=
  ms.foldl bucketStep ([], [], [])

/-- Lines 233-238: return a uniform choice from `worstOther` when it is
non-empty, else from `worstChecks` when it is non-empty, else from
`worstCaptures`. -/
def pickWorst (worstCaptures worstChecks worstOther : List Tagged) (r : Nat) :
    Except PyErr Tagged :=
  if worstOther.length ≠ 0 then choice worstOther r
  else if worstChecks.length ≠ 0 then choice worstChecks r
  else choice worstCaptures r

namespace WorstFish

/-- `WorstFish.search(board, timeLeft, *args)` (lines 203-238).  `r` supplies
the index drawn by the single `random.choice` call that runs. -/
def search [LinearOrder α] (G : Game α) (b : Board) (timeLeft : TimeLeft) (r : Nat) :
    Except PyErr Tagged :=
  let legalMoves := G.legalMoves b.pos
  let searchTime := searchTimeFor timeLeft legalMoves.length
  let st := scoreLoop G searchTime b legalMoves
  let bs := buckets st.worstMoves
  pickWorst bs.1 bs.2.1 bs.2.2 r

/-- The lichess-bot framework calls `search(board, time_limit, ponder,
draw_offered, root_moves)`; `WorstFish.search` binds everything after
`timeLeft` into `*args` and never reads it, so `root_moves`
(`restrict_to_moves`) does not influence the result. -/
def searchR [LinearOrder α] (G : Game α) (b : Board) (timeLeft : TimeLeft) (r : Nat)
    (rootMoves : Option (List Move)) : Except PyErr Tagged :=
  search G b timeLeft r

end WorstFish

/-- The tied set `worstMoves` as it stands after the scoring loop of
`WorstFish.search`, before the classification of lines 223-232. -/
def tiedSet [LinearOrder α] (G : Game α) (b : Board) (timeLeft : TimeLeft) : List Tagged :=
  (scoreLoop G (searchTimeFor timeLeft (G.legalMoves b.pos).length) b (G.legalMoves b.pos)).worstMoves

namespace TestFish

/-- The `Best` branch of `TestFish.search` (lines 129-140): ask stockfish for
its best move; `print("BMOVE: " + bmove)` raises a TypeError when
`get_best_move` returns `None`, otherwise the move is returned. -/
def searchBest (G : Game α) (b : Board) : Except PyErr Move :=
  match G.engineBest b.pos with
  | some m => .ok m
  | none => .error .typeError

/-- The `Random` branch of `TestFish.search` (lines 141-143): a uniform choice
from the legal moves. -/
def searchRandom (G : Game α) (b : Board) (r : Nat) : Except PyErr Move :=
  choice (G.legalMoves b.pos) r

/-- Lines 145-149: the `captures` list, built by appending every legal move
accepted by `board.is_capture`. -/
def captureList (G : Game α) (b : Board) : List Move :=
  (G.legalMoves b.pos).foldl (fun acc m => if G.isCapture b.pos m then acc ++ [m] else acc) []

/-- The `Capture` branch of `TestFish.search` (lines 144-155): choose
uniformly among the captures when there are any, otherwise run exactly the
engine query of the `Best` branch. -/
def searchCapture (G : Game α) (b : Board) (r : Nat) : Except PyErr Move :=
  if (captureList G b).length ≠ 0 then choice (captureList G b) r
  else searchBest G b

/-- The `Worst` branch of `TestFish.search` (lines 156-191), whose body is
character for character the body of `WorstFish.search` (lines 203-238). -/
def searchWorst [LinearOrder α] (G : Game α) (b : Board) (timeLeft : TimeLeft) (r : Nat) :
    Except PyErr Tagged :=
  WorstFish.search G b timeLeft r

end TestFish

/-! ### Basic facts about the embedded operations -/

theorem Board.pop_push (G : Game α) (b : Board) (m : Move) : (b.push G m).pop = b := rfl

theorem choice_ok_mem (xs : List α) (r : Nat) (h : xs ≠ []) :
    ∃ u, choice xs r = .ok u ∧ u ∈ xs := by
  cases xs with
  | nil => exact absurd rfl h
  | cons x rest => exact ⟨_, rfl, List.get_mem _ _ _⟩

theorem choice_mem (xs : List α) (r : Nat) (u : α) (h : choice xs r = .ok u) : u ∈ xs := by
  cases xs with
  | nil => exact absurd h (by simp [choice])
  | cons x rest =>
      have : u = (x :: rest).get ⟨r % (x :: rest).length, _⟩ := (Except.ok.inj h).symm
      rw [this]
      exact List.get_mem _ _ _

theorem scoreStep_board [LinearOrder α] (G : Game α) (t : ℚ) (st : ScanState α) (m : Move) :
    (scoreStep G t st m).board = st.board := by
  rcases st with ⟨we, wm, bd⟩
  cases we with
  | none => rfl
  | some w =>
      simp only [scoreStep]
      split_ifs <;> rfl

theorem foldl_scoreStep_board [LinearOrder α] (G : Game α) (t : ℚ) :
    ∀ (ms : List Move) (st : ScanState α), (ms.foldl (scoreStep G t) st).board = st.board := by
  intro ms
  induction ms with
  | nil => intro st; rfl
  | cons m rest ih => intro st; rw [List.foldl_cons, ih, scoreStep_board]

theorem scoreLoop_board [LinearOrder α] (G : Game α) (t : ℚ) (b : Board) (ms : List Move) :
    (scoreLoop G t b ms).board = b :=
  foldl_scoreStep_board G t ms ⟨none, [], b⟩

theorem scoreStep_eval_none [LinearOrder α] (G : Game α) (t : ℚ) (st : ScanState α) (m : Move)
    (hw : st.worstEvaluation = none) :
    (scoreStep G t st m).worstEvaluation = some (evaluate G (G.applyMove st.board.pos m) t) ∧
    (scoreStep G t st m).worstMoves = [tagOf G st.board.pos m] := by
  rcases st with ⟨we, wm, bd⟩
  cases hw
  exact ⟨rfl, rfl⟩

theorem scoreStep_eval_some [LinearOrder α] (G : Game α) (t : ℚ) (st : ScanState α) (m : Move)
    (w : α) (hw : st.worstEvaluation = some w) :
    (scoreStep G t st m).worstEvaluation =
      some (max w (evaluate G (G.applyMove st.board.pos m) t)) := by
  rcases st with ⟨we, wm, bd⟩
  cases hw
  simp only [scoreStep]
  dsimp only [Board.push]
  split_ifs with h1 h2
  · rw [max_eq_right h1.le]
  · rw [h2, max_self]
  · rw [max_eq_left (le_of_not_lt h1)]

theorem scoreStep_mem [LinearOrder α] (G : Game α) (t : ℚ) (st : ScanState α) (m : Move)
    (tg : Tagged) (h : tg ∈ (scoreStep G t st m).worstMoves) :
    tg ∈ st.worstMoves ∨ tg = tagOf G st.board.pos m := by
  rcases st with ⟨we, wm, bd⟩
  cases we with
  | none =>
      simp only [scoreStep, List.mem_singleton] at h
      exact Or.inr h
  | some w =>
      simp only [scoreStep] at h
      split_ifs at h with h1 h2
      · exact Or.inr (List.mem_singleton.mp h)
      · rcases List.mem_append.mp h with hh | hh
        · exact Or.inl hh
        · exact Or.inr (List.mem_singleton.mp hh)
      · exact Or.inl h

theorem scoreStep_ne_nil [LinearOrder α] (G : Game α) (t : ℚ) (st : ScanState α) (m : Move)
    (h : st.worstEvaluation = none ∨ st.worstMoves ≠ []) :
    (scoreStep G t st m).worstMoves ≠ [] ∧ (scoreStep G t st m).worstEvaluation ≠ none := by
  rcases st with ⟨we, wm, bd⟩
  cases we with
  | none => exact ⟨by simp [scoreStep], by simp [scoreStep]⟩
  | some w =>
      have hwm : wm ≠ [] := by
        rcases h with h | h
        · exact absurd h (by simp)
        · exact h
      constructor
      · simp only [scoreStep]
        split_ifs <;> simp [hwm]
      · simp only [scoreStep]
        split_ifs <;> simp

theorem foldl_scoreStep_ne_nil [LinearOrder α] (G : Game α) (t : ℚ) :
    ∀ (ms : List Move) (st : ScanState α),
      st.worstEvaluation ≠ none → st.worstMoves ≠ [] →
      (ms.foldl (scoreStep G t) st).worstMoves ≠ [] := by
  intro ms
  induction ms with
  | nil => intro st _ h2; exact h2
  | cons m rest ih =>
      intro st _ h2
      rw [List.foldl_cons]
      have hs := scoreStep_ne_nil G t st m (Or.inr h2)
      exact ih _ hs.2 hs.1

theorem tiedSet_ne_nil [LinearOrder α] (G : Game α) (b : Board) (tl : TimeLeft)
    (h : G.legalMoves b.pos ≠ []) : tiedSet G b tl ≠ [] := by
  unfold tiedSet scoreLoop
  rcases hl : G.legalMoves b.pos with _ | ⟨m, rest⟩
  · exact absurd hl h
  · rw [List.foldl_cons]
    have hs := scoreStep_ne_nil G (searchTimeFor tl (m :: rest).length) ⟨none, [], b⟩ m
      (Or.inl rfl)
    exact foldl_scoreStep_ne_nil G _ rest _ hs.2 hs.1

theorem foldl_scoreStep_mem [LinearOrder α] (G : Game α) (t : ℚ) :
    ∀ (ms : List Move) (st : ScanState α) (tg : Tagged),
      tg ∈ (ms.foldl (scoreStep G t) st).worstMoves →
      tg ∈ st.worstMoves ∨ ∃ m ∈ ms, tg = tagOf G st.board.pos m := by
  intro ms
  induction ms with
  | nil => intro st tg h; exact Or.inl h
  | cons m rest ih =>
      intro st tg h
      rw [List.foldl_cons] at h
      rcases ih _ tg h with hh | ⟨m2, hm2, he⟩
      · rcases scoreStep_mem G t st m tg hh with h3 | h3
        · exact Or.inl h3
        · exact Or.inr ⟨m, List.mem_cons_self m rest, h3⟩
      · rw [scoreStep_board] at he
        exact Or.inr ⟨m2, List.mem_cons_of_mem _ hm2, he⟩

theorem tiedSet_mem [LinearOrder α] (G : Game α) (b : Board) (tl : TimeLeft) (tg : Tagged)
    (h : tg ∈ tiedSet G b tl) : ∃ m ∈ G.legalMoves b.pos, tg = tagOf G b.pos m := by
  unfold tiedSet scoreLoop at h
  rcases foldl_scoreStep_mem G _ _ _ tg h with hh | ⟨m, hm, he⟩
  · exact absurd hh (by simp)
  · exact ⟨m, hm, he⟩

theorem foldl_scoreStep_max [LinearOrder α] (G : Game α) (t : ℚ) :
    ∀ (ms : List Move) (st : ScanState α) (w : α), st.worstEvaluation = some w →
      (ms.foldl (scoreStep G t) st).worstEvaluation =
        some (ms.foldl (fun acc mv => max acc (evaluate G (G.applyMove st.board.pos mv) t)) w) := by
  intro ms
  induction ms with
  | nil => intro st w hw; simpa using hw
  | cons m rest ih =>
      intro st w hw
      rw [List.foldl_cons, List.foldl_cons]
      have h1 := scoreStep_eval_some G t st m w hw
      have h2 := ih (scoreStep G t st m) (max w (evaluate G (G.applyMove st.board.pos m) t)) h1
      rw [h2, scoreStep_board]

theorem scoreLoop_max [LinearOrder α] (G : Game α) (t : ℚ) (b : Board) (ms : List Move) :
    (scoreLoop G t b ms).worstEvaluation =
      (ms.map (fun mv => evaluate G (G.applyMove b.pos mv) t)).max? := by
  cases ms with
  | nil => rfl
  | cons m rest =>
      unfold scoreLoop
      rw [List.foldl_cons]
      have h0 := scoreStep_eval_none G t ⟨none, [], b⟩ m rfl
      have h2 := foldl_scoreStep_max G t rest (scoreStep G t ⟨none, [], b⟩ m) _ h0.1
      rw [h2, scoreStep_board]
      show some _ = ((m :: rest).map _).max?
      rw [List.map_cons]
      show some _ = some (((rest.map _).foldl max _))
      rw [List.foldl_map]

theorem foldl_bucketStep (ms : List Tagged) :
    ∀ ca ch ot, ms.foldl bucketStep (ca, ch, ot) =
      (ca ++ ms.filter (fun t => t.isCapture),
       ch ++ ms.filter (fun t => !t.isCapture && t.isCheck),
       ot ++ ms.filter (fun t => !t.isCapture && !t.isCheck)) := by
  induction ms with
  | nil => intro ca ch ot; simp
  | cons t rest ih =>
      intro ca ch ot
      rw [List.foldl_cons]
      cases hc : t.isCapture with
      | true =>
          have hb : bucketStep (ca, ch, ot) t = (ca ++ [t], ch, ot) := by
            simp [bucketStep, hc]
          rw [hb, ih]
          simp [List.filter_cons, hc, List.append_assoc]
      | false =>
          cases hk : t.isCheck with
          | true =>
              have hb : bucketStep (ca, ch, ot) t = (ca, ch ++ [t], ot) := by
                simp [bucketStep, hc, hk]
              rw [hb, ih]
              simp [List.filter_cons, hc, hk, List.append_assoc]
          | false =>
              have hb : bucketStep (ca, ch, ot) t = (ca, ch, ot ++ [t]) := by
                simp [bucketStep, hc, hk]
              rw [hb, ih]
              simp [List.filter_cons, hc, hk, List.append_assoc]

theorem buckets_eq (ms : List Tagged) :
    buckets ms =
      (ms.filter (fun t => t.isCapture),
       ms.filter (fun t => !t.isCapture && t.isCheck),
       ms.filter (fun t => !t.isCapture && !t.isCheck)) := by
  unfold buckets
  rw [foldl_bucketStep]
  simp

theorem foldl_filter_append (p : Move → Bool) :
    ∀ (ms : List Move) (acc : List Move),
      ms.foldl (fun acc m => if p m then acc ++ [m] else acc) acc = acc ++ ms.filter p := by
  intro ms
  induction ms with
  | nil => intro acc; simp
  | cons m rest ih =>
      intro acc
      rw [List.foldl_cons]
      cases hp : p m
      · rw [if_neg (by simp [hp]), ih]
        simp [List.filter_cons, hp]
      · rw [if_pos (by simp [hp]), ih]
        simp [List.filter_cons, hp, List.append_assoc]

theorem captureList_eq_filter (G : Game α) (b : Board) :
    TestFish.captureList G b = (G.legalMoves b.pos).filter (fun m => G.isCapture b.pos m) := by
  unfold TestFish.captureList
  rw [foldl_filter_append]
  simp

theorem search_eq_pick [LinearOrder α] (G : Game α) (b : Board) (tl : TimeLeft) (r : Nat) :
    WorstFish.search G b tl r =
      pickWorst ((tiedSet G b tl).filter (fun t => t.isCapture))
        ((tiedSet G b tl).filter (fun t => !t.isCapture && t.isCheck))
        ((tiedSet G b tl).filter (fun t => !t.isCapture && !t.isCheck)) r := by
  show pickWorst (buckets (tiedSet G b tl)).1 (buckets (tiedSet G b tl)).2.1
      (buckets (tiedSet G b tl)).2.2 r = _
  rw [buckets_eq]

/-! ### The claims -/

/-- C1: after all candidates are scored, the tied-at-worst set is partitioned
into quiet moves (neither capture nor check), checks, and captures, and the
returned move is a uniform choice from the first non-empty bucket in the
order quiet, checks, captures; in particular, when the tied set contains a
quiet move, the selector returns a quiet member of the tied set for every
random draw, regardless of enumeration order. -/
theorem worst_tiebreak_quiet [LinearOrder α] (G : Game α) (b : Board) (tl : TimeLeft) (r : Nat)
    (h : ∃ t ∈ tiedSet G b tl, t.isCapture = false ∧ t.isCheck = false) :
    buckets (tiedSet G b tl) =
      ((tiedSet G b tl).filter (fun t => t.isCapture),
       (tiedSet G b tl).filter (fun t => !t.isCapture && t.isCheck),
       (tiedSet G b tl).filter (fun t => !t.isCapture && !t.isCheck)) ∧
    WorstFish.search G b tl r =
      choice ((tiedSet G b tl).filter (fun t => !t.isCapture && !t.isCheck)) r ∧
    ∃ u, WorstFish.search G b tl r = .ok u ∧ u ∈ tiedSet G b tl ∧
      u.isCapture = false ∧ u.isCheck = false := by
  have hq : (tiedSet G b tl).filter (fun t => !t.isCapture && !t.isCheck) ≠ [] := by
    rcases h with ⟨t, ht, h1, h2⟩
    intro hf
    have hmem : t ∈ (tiedSet G b tl).filter (fun t => !t.isCapture && !t.isCheck) :=
      List.mem_filter.mpr ⟨ht, by simp [h1, h2]⟩
    rw [hf] at hmem
    exact absurd hmem (List.not_mem_nil t)
  have hsel : WorstFish.search G b tl r =
      choice ((tiedSet G b tl).filter (fun t => !t.isCapture && !t.isCheck)) r := by
    rw [search_eq_pick]
    unfold pickWorst
    rw [if_pos (fun hl => hq (List.length_eq_zero.mp hl))]
  refine ⟨buckets_eq _, hsel, ?_⟩
  rcases choice_ok_mem _ r hq with ⟨u, hu, hmem⟩
  have hspec := List.mem_filter.mp hmem
  refine ⟨u, by rw [hsel]; exact hu, hspec.1, ?_, ?_⟩
  · have := hspec.2
    simp only [Bool.and_eq_true, Bool.not_eq_true'] at this
    exact this.1
  · have := hspec.2
    simp only [Bool.and_eq_true, Bool.not_eq_true'] at this
    exact this.2

/-- A concrete oracle with three legal moves tied at the same score: move 0 is
quiet, move 1 gives check, move 2 is a capture. -/
def tieGame : Game ℤ where
  legalMoves := fun _ => [0, 1, 2]
  isCapture := fun _ m => m == 2
  applyMove := fun _ m => m + 1
  isCheck := fun p => p == 2
  engineEval := fun _ _ => 0
  engineBest := fun _ => some 0

/-- Witness for C1: on `tieGame` the tied set holds a quiet move, a check and
a capture, and the selector returns the quiet move. -/
theorem worst_tiebreak_quiet_witness :
    buckets (tiedSet tieGame ⟨0, []⟩ .limit) =
      ((tiedSet tieGame ⟨0, []⟩ .limit).filter (fun t => t.isCapture),
       (tiedSet tieGame ⟨0, []⟩ .limit).filter (fun t => !t.isCapture && t.isCheck),
       (tiedSet tieGame ⟨0, []⟩ .limit).filter (fun t => !t.isCapture && !t.isCheck)) ∧
    WorstFish.search tieGame ⟨0, []⟩ .limit 0 =
      choice ((tiedSet tieGame ⟨0, []⟩ .limit).filter (fun t => !t.isCapture && !t.isCheck)) 0 ∧
    ∃ u, WorstFish.search tieGame ⟨0, []⟩ .limit 0 = .ok u ∧ u ∈ tiedSet tieGame ⟨0, []⟩ .limit ∧
      u.isCapture = false ∧ u.isCheck = false :=
  worst_tiebreak_quiet tieGame ⟨0, []⟩ .limit 0 (by decide)

/-- C2: for a clock-based time budget of `ms` milliseconds (`T = ms / 1000`
seconds) and `n ≥ 1` legal moves, the per-move slice is the 0.1-second
baseline, shrunk to `(T / 10) / n` whenever `n * 0.1` exceeds `T / 10`; in
consequence the sum of the `n` per-move slices handed to the evaluator never
exceeds `T / 10`. -/
theorem searchTime_clock_cap (ms : ℚ) (n : Nat) (h : 1 ≤ n) :
    (n : ℚ) * searchTimeFor (.clock ms) n ≤ (ms / 1000) / 10 ∧
    ((ms / 1000) / 10 < (n : ℚ) * (1/10) →
      searchTimeFor (.clock ms) n = ((ms / 1000) / 10) / (n : ℚ)) ∧
    ((n : ℚ) * (1/10) ≤ (ms / 1000) / 10 → searchTimeFor (.clock ms) n = 1/10) := by
  have hn : (n : ℚ) ≠ 0 := Nat.cast_ne_zero.mpr (Nat.one_le_iff_ne_zero.mp h)
  unfold searchTimeFor
  dsimp only
  split_ifs with hc
  · refine ⟨?_, fun _ => rfl, fun hle => absurd hc (not_lt.mpr hle)⟩
    rw [mul_comm, div_mul_cancel₀ _ hn]
  · exact ⟨not_lt.mp hc, fun hlt => absurd hlt hc, fun _ => rfl⟩

/-- Witness for C2 at `T = 1` second and `n = 5` moves: the shrink branch
fires, the slice becomes `0.02` and the aggregate stays at `T / 10`. -/
theorem searchTime_clock_cap_witness :
    ((5 : Nat) : ℚ) * searchTimeFor (.clock 1000) 5 ≤ ((1000 : ℚ) / 1000) / 10 ∧
    (((1000 : ℚ) / 1000) / 10 < ((5 : Nat) : ℚ) * (1/10) →
      searchTimeFor (.clock 1000) 5 = (((1000 : ℚ) / 1000) / 10) / ((5 : Nat) : ℚ)) ∧
    (((5 : Nat) : ℚ) * (1/10) ≤ ((1000 : ℚ) / 1000) / 10 →
      searchTimeFor (.clock 1000) 5 = 1/10) :=
  searchTime_clock_cap 1000 5 (by decide)

/-- C3: over the scoring loop the running worst value is the maximum of the
post-move evaluations (each taken at the position after the move, i.e. from
the side then to move — the opponent); one step with a strictly larger
evaluation replaces the tied set by the singleton of that candidate, an
exactly equal evaluation appends the candidate, and a smaller one leaves the
tied set and the running worst unchanged. -/
theorem scoring_loop_worst [LinearOrder α] (G : Game α) (t : ℚ) (b : Board) (ms : List Move)
    (st : ScanState α) (m : Move) (w : α) (hw : st.worstEvaluation = some w) :
    (scoreLoop G t b ms).worstEvaluation =
      (ms.map (fun mv => evaluate G (G.applyMove b.pos mv) t)).max? ∧
    (w < evaluate G (G.applyMove st.board.pos m) t →
      (scoreStep G t st m).worstMoves = [tagOf G st.board.pos m] ∧
      (scoreStep G t st m).worstEvaluation = some (evaluate G (G.applyMove st.board.pos m) t)) ∧
    (w = evaluate G (G.applyMove st.board.pos m) t →
      (scoreStep G t st m).worstMoves = st.worstMoves ++ [tagOf G st.board.pos m] ∧
      (scoreStep G t st m).worstEvaluation = some w) ∧
    (evaluate G (G.applyMove st.board.pos m) t < w →
      (scoreStep G t st m).worstMoves = st.worstMoves ∧
      (scoreStep G t st m).worstEvaluation = some w) := by
  refine ⟨scoreLoop_max G t b ms, ?_, ?_, ?_⟩
  · rcases st with ⟨we, wm, bd⟩
    cases hw
    intro hcmp
    have hlt : w < evaluate G (G.applyMove bd.pos m) t := hcmp
    simp only [scoreStep]
    dsimp only [Board.push]
    rw [if_pos hlt]
    exact ⟨rfl, rfl⟩
  · rcases st with ⟨we, wm, bd⟩
    cases hw
    intro hcmp
    have heq : w = evaluate G (G.applyMove bd.pos m) t := hcmp
    have hnl : ¬ w < evaluate G (G.applyMove bd.pos m) t := by
      rw [heq]
      exact lt_irrefl _
    simp only [scoreStep]
    dsimp only [Board.push]
    rw [if_neg hnl, if_pos heq]
    exact ⟨rfl, rfl⟩
  · rcases st with ⟨we, wm, bd⟩
    cases hw
    intro hcmp
    have hgt : evaluate G (G.applyMove bd.pos m) t < w := hcmp
    have hnl : ¬ w < evaluate G (G.applyMove bd.pos m) t := lt_asymm hgt
    have hne : ¬ w = evaluate G (G.applyMove bd.pos m) t := fun he =>
      absurd (he ▸ hgt) (lt_irrefl _)
    simp only [scoreStep]
    dsimp only [Board.push]
    rw [if_neg hnl, if_neg hne]
    exact ⟨rfl, rfl⟩

/-- A concrete oracle whose evaluation is the position identifier, so that
different moves receive different scores. -/
def c3Game : Game ℤ where
  legalMoves := fun _ => [0, 1]
  isCapture := fun _ _ => false
  applyMove := fun p m => p + m + 1
  isCheck := fun _ => false
  engineEval := fun p _ => (p : ℤ)
  engineBest := fun _ => some 0

/-- Witness for C3 at a concrete loop state with running worst 0. -/
theorem scoring_loop_worst_witness :
    (scoreLoop c3Game (1/10) ⟨0, []⟩ [0, 1]).worstEvaluation =
      ([0, 1].map (fun mv => evaluate c3Game (c3Game.applyMove 0 mv) (1/10))).max? ∧
    ((0 : ℤ) < evaluate c3Game 1 (1/10) →
      (scoreStep c3Game (1/10) ⟨some 0, [], ⟨0, []⟩⟩ 0).worstMoves = [⟨0, false, false⟩] ∧
      (scoreStep c3Game (1/10) ⟨some 0, [], ⟨0, []⟩⟩ 0).worstEvaluation =
        some (evaluate c3Game 1 (1/10))) ∧
    ((0 : ℤ) = evaluate c3Game 1 (1/10) →
      (scoreStep c3Game (1/10) ⟨some 0, [], ⟨0, []⟩⟩ 0).worstMoves = [] ++ [⟨0, false, false⟩] ∧
      (scoreStep c3Game (1/10) ⟨some 0, [], ⟨0, []⟩⟩ 0).worstEvaluation = some 0) ∧
    (evaluate c3Game 1 (1/10) < (0 : ℤ) →
      (scoreStep c3Game (1/10) ⟨some 0, [], ⟨0, []⟩⟩ 0).worstMoves = [] ∧
      (scoreStep c3Game (1/10) ⟨some 0, [], ⟨0, []⟩⟩ 0).worstEvaluation = some 0) :=
  scoring_loop_worst c3Game (1/10) ⟨0, []⟩ [0, 1] ⟨some 0, [], ⟨0, []⟩⟩ 0 0 rfl

/-- A concrete oracle where `board.is_capture(m)` answers differently before
and after the push: at the root position move 0 is a capture, at the position
reached after playing it the same query answers false. -/
def c4Game : Game ℤ where
  legalMoves := fun _ => [0]
  isCapture := fun p _ => p == 0
  applyMove := fun p m => p + m + 1
  isCheck := fun _ => false
  engineEval := fun _ _ => 0
  engineBest := fun _ => some 0

/-- C4 counterexample: the `isCapture` attribute attached during scoring is
the answer of `board.is_capture` on the position before the move is pushed
(line 213 runs before line 214); on `c4Game` the attached value is `true`
although the same query on the position after the move answers `false`, so
the attached boolean does not reflect the position after the move. -/
theorem tag_isCapture_premove_cex :
    tiedSet c4Game ⟨0, []⟩ .limit = [⟨0, true, false⟩] ∧
    c4Game.isCapture (c4Game.applyMove 0 0) 0 = false := by decide

/-- C4 amended: every move in the tied set carries `isCheck` computed on the
position after the move is applied, but `isCapture` computed on the position
before the move is applied (the position in which the move is legal). -/
theorem tags_pre_and_post [LinearOrder α] (G : Game α) (b : Board) (tl : TimeLeft)
    (tg : Tagged) (h : tg ∈ tiedSet G b tl) :
    ∃ m ∈ G.legalMoves b.pos,
      tg = ⟨m, G.isCapture b.pos m, G.isCheck (G.applyMove b.pos m)⟩ :=
  tiedSet_mem G b tl tg h

/-- Witness for C4 on `c4Game`: the tied tag `⟨0, true, false⟩` comes from
legal move 0, with `isCapture` from the pre-move position. -/
theorem tags_pre_and_post_witness :
    ∃ m ∈ c4Game.legalMoves 0,
      (⟨0, true, false⟩ : Tagged) =
        ⟨m, c4Game.isCapture 0 m, c4Game.isCheck (c4Game.applyMove 0 m)⟩ :=
  tags_pre_and_post c4Game ⟨0, []⟩ .limit ⟨0, true, false⟩ (by decide)

/-- A concrete oracle for a terminal position: no legal moves and no engine
best move. -/
def emptyGame : Game ℤ where
  legalMoves := fun _ => []
  isCapture := fun _ _ => false
  applyMove := fun p _ => p
  isCheck := fun _ => false
  engineEval := fun _ _ => 0
  engineBest := fun _ => none

/-- C5 counterexample: with zero legal moves the Worst strategy fails with an
IndexError (`random.choice` on the empty `worstCaptures` list), not with a
`NoLegalMoves` error — no code path produces such an error. -/
theorem no_legal_moves_cex :
    WorstFish.search emptyGame ⟨0, []⟩ .limit 0 = .error .indexError ∧
    WorstFish.search emptyGame ⟨0, []⟩ .limit 0 ≠ .error .noLegalMoves := by decide

/-- C5 amended: on a position with zero legal moves every strategy raises an
error, but never a `NoLegalMoves` one: Worst and Random raise IndexError from
sampling an empty sequence, while Best and Capture (whose capture list is
empty, so it falls through to the engine query) raise TypeError from
concatenating the `None` best move into the log string. -/
theorem no_legal_moves_errors [LinearOrder α] (G : Game α) (b : Board) (tl : TimeLeft) (r : Nat)
    (h : G.legalMoves b.pos = []) (hb : G.engineBest b.pos = none) :
    WorstFish.search G b tl r = .error .indexError ∧
    TestFish.searchWorst G b tl r = .error .indexError ∧
    TestFish.searchRandom G b r = .error .indexError ∧
    TestFish.searchBest G b = .error .typeError ∧
    TestFish.searchCapture G b r = .error .typeError := by
  have hw : WorstFish.search G b tl r = .error .indexError := by
    unfold WorstFish.search
    rw [h]
    rfl
  have hbst : TestFish.searchBest G b = .error .typeError := by
    unfold TestFish.searchBest
    rw [hb]
  have hcap : TestFish.captureList G b = [] := by
    unfold TestFish.captureList
    rw [h]
    rfl
  have hc : TestFish.searchCapture G b r = .error .typeError := by
    unfold TestFish.searchCapture
    rw [hcap, if_neg (by simp)]
    exact hbst
  have hr : TestFish.searchRandom G b r = .error .indexError := by
    unfold TestFish.searchRandom
    rw [h]
    rfl
  exact ⟨hw, hw, hr, hbst, hc⟩

/-- Witness for C5 on `emptyGame`. -/
theorem no_legal_moves_errors_witness :
    WorstFish.search emptyGame ⟨0, []⟩ .limit 0 = .error .indexError ∧
    TestFish.searchWorst emptyGame ⟨0, []⟩ .limit 0 = .error .indexError ∧
    TestFish.searchRandom emptyGame ⟨0, []⟩ 0 = .error .indexError ∧
    TestFish.searchBest emptyGame ⟨0, []⟩ = .error .typeError ∧
    TestFish.searchCapture emptyGame ⟨0, []⟩ 0 = .error .typeError :=
  no_legal_moves_errors emptyGame ⟨0, []⟩ .limit 0 rfl rfl

/-- C6: the capture list built by the Capture strategy is exactly the legal
moves filtered by `board.is_capture`, and the strategy returns a uniform
choice from that list when it is non-empty, and otherwise exactly what the
Best strategy returns for the same position. -/
theorem capture_fallback (G : Game α) (b : Board) (r : Nat) :
    TestFish.captureList G b = (G.legalMoves b.pos).filter (fun m => G.isCapture b.pos m) ∧
    TestFish.searchCapture G b r =
      (if (G.legalMoves b.pos).filter (fun m => G.isCapture b.pos m) = []
       then TestFish.searchBest G b
       else choice ((G.legalMoves b.pos).filter (fun m => G.isCapture b.pos m)) r) := by
  refine ⟨captureList_eq_filter G b, ?_⟩
  unfold TestFish.searchCapture
  rw [captureList_eq_filter]
  by_cases hf : (G.legalMoves b.pos).filter (fun m => G.isCapture b.pos m) = []
  · rw [if_pos hf, hf, if_neg (by simp)]
  · rw [if_neg hf, if_pos (fun hl => hf (List.length_eq_zero.mp hl))]

/-- Witness for C6 on `c3Game`, a position with no captures: the Capture
strategy falls back to the Best strategy. -/
theorem capture_fallback_witness :
    TestFish.captureList c3Game ⟨0, []⟩ =
      (c3Game.legalMoves 0).filter (fun m => c3Game.isCapture 0 m) ∧
    TestFish.searchCapture c3Game ⟨0, []⟩ 0 =
      (if (c3Game.legalMoves 0).filter (fun m => c3Game.isCapture 0 m) = []
       then TestFish.searchBest c3Game ⟨0, []⟩
       else choice ((c3Game.legalMoves 0).filter (fun m => c3Game.isCapture 0 m)) 0) :=
  capture_fallback c3Game ⟨0, []⟩ 0

/-- C7: `board.push` followed by `board.pop` is an exact inverse on boards,
every scoring iteration ends with the board it started from, and after the
whole scoring loop the board is exactly the board at call start, for every
candidate and every oracle — so repeated apply/revert cycles cannot drift. -/
theorem push_pop_roundtrip [LinearOrder α] (G : Game α) (t : ℚ) :
    (∀ (b : Board) (m : Move), (b.push G m).pop = b) ∧
    (∀ (st : ScanState α) (m : Move), (scoreStep G t st m).board = st.board) ∧
    (∀ (b : Board) (ms : List Move), (scoreLoop G t b ms).board = b) :=
  ⟨fun b m => Board.pop_push G b m,
   fun st m => scoreStep_board G t st m,
   fun b ms => scoreLoop_board G t b ms⟩

/-- Witness for C7 on `tieGame` with a non-trivial stack. -/
theorem push_pop_roundtrip_witness :
    ((⟨0, [7]⟩ : Board).push tieGame 1).pop = (⟨0, [7]⟩ : Board) ∧
    (scoreLoop tieGame (1/10) ⟨0, []⟩ [0, 1, 2]).board = (⟨0, []⟩ : Board) :=
  ⟨(push_pop_roundtrip tieGame (1/10)).1 ⟨0, [7]⟩ 1,
   (push_pop_roundtrip tieGame (1/10)).2.2 ⟨0, []⟩ [0, 1, 2]⟩

theorem search_ok_mem_tied [LinearOrder α] (G : Game α) (b : Board) (tl : TimeLeft) (r : Nat)
    (h : tiedSet G b tl ≠ []) :
    ∃ u, WorstFish.search G b tl r = .ok u ∧ u ∈ tiedSet G b tl := by
  rw [search_eq_pick]
  unfold pickWorst
  by_cases h3 : (tiedSet G b tl).filter (fun t => !t.isCapture && !t.isCheck) = []
  · by_cases h2 : (tiedSet G b tl).filter (fun t => !t.isCapture && t.isCheck) = []
    · have h1 : (tiedSet G b tl).filter (fun t => t.isCapture) ≠ [] := by
        rcases List.exists_mem_of_ne_nil _ h with ⟨t0, ht0⟩
        intro hf1
        cases hc : t0.isCapture with
        | true =>
            have hmem : t0 ∈ (tiedSet G b tl).filter (fun t => t.isCapture) :=
              List.mem_filter.mpr ⟨ht0, hc⟩
            rw [hf1] at hmem
            exact List.not_mem_nil t0 hmem
        | false =>
            cases hk : t0.isCheck with
            | true =>
                have hmem : t0 ∈ (tiedSet G b tl).filter (fun t => !t.isCapture && t.isCheck) :=
                  List.mem_filter.mpr ⟨ht0, by simp [hc, hk]⟩
                rw [h2] at hmem
                exact List.not_mem_nil t0 hmem
            | false =>
                have hmem : t0 ∈ (tiedSet G b tl).filter (fun t => !t.isCapture && !t.isCheck) :=
                  List.mem_filter.mpr ⟨ht0, by simp [hc, hk]⟩
                rw [h3] at hmem
                exact List.not_mem_nil t0 hmem
      rw [if_neg (by simp [h3]), if_neg (by simp [h2])]
      rcases choice_ok_mem _ r h1 with ⟨u, hu, hm⟩
      exact ⟨u, hu, (List.mem_filter.mp hm).1⟩
    · rw [if_neg (by simp [h3]), if_pos (fun hl => h2 (List.length_eq_zero.mp hl))]
      rcases choice_ok_mem _ r h2 with ⟨u, hu, hm⟩
      exact ⟨u, hu, (List.mem_filter.mp hm).1⟩
  · rw [if_pos (fun hl => h3 (List.length_eq_zero.mp hl))]
    rcases choice_ok_mem _ r h3 with ⟨u, hu, hm⟩
    exact ⟨u, hu, (List.mem_filter.mp hm).1⟩

/-- A concrete oracle with two quiet legal moves tied at the same score. -/
def c8Game : Game ℤ where
  legalMoves := fun _ => [0, 1]
  isCapture := fun _ _ => false
  applyMove := fun p m => p + m + 1
  isCheck := fun _ => false
  engineEval := fun _ _ => 0
  engineBest := fun _ => some 0

/-- C8 counterexample: `root_moves` (`restrict_to_moves`) is bound into
`*args` and never read, so with `restrict_to_moves = [1]` the Worst strategy
still returns move 0, which is outside the requested intersection. -/
theorem restrict_ignored_cex :
    WorstFish.searchR c8Game ⟨0, []⟩ .limit 0 (some [1]) = .ok ⟨0, false, false⟩ ∧
    (⟨0, false, false⟩ : Tagged).mv ∉ ([1] : List Move) := by decide

/-- C8 amended: with at least one legal move, Random, Best, Capture and Worst
all return members of the position's legal-move set (for the engine-delegating
branches under the assumption that the engine's best move is legal), but
`restrict_to_moves` is ignored: `searchR` coincides with `search` for every
value of `root_moves`, so the result need not lie in the intersection with
`restrict_to_moves`. -/
theorem strategies_return_legal [LinearOrder α] (G : Game α) (b : Board) (tl : TimeLeft)
    (r : Nat) (h : G.legalMoves b.pos ≠ [])
    (hb : ∀ m, G.engineBest b.pos = some m → m ∈ G.legalMoves b.pos) :
    (∃ u, TestFish.searchRandom G b r = .ok u ∧ u ∈ G.legalMoves b.pos) ∧
    (∀ u, TestFish.searchBest G b = .ok u → u ∈ G.legalMoves b.pos) ∧
    (∀ u, TestFish.searchCapture G b r = .ok u → u ∈ G.legalMoves b.pos) ∧
    (∃ u, WorstFish.search G b tl r = .ok u ∧ u.mv ∈ G.legalMoves b.pos) ∧
    (∀ rm, WorstFish.searchR G b tl r rm = WorstFish.search G b tl r) := by
  have hbest : ∀ u, TestFish.searchBest G b = .ok u → u ∈ G.legalMoves b.pos := by
    intro u hu
    unfold TestFish.searchBest at hu
    cases hbe : G.engineBest b.pos with
    | none => rw [hbe] at hu; exact absurd hu (by simp)
    | some m =>
        rw [hbe] at hu
        have hm : m = u := Except.ok.inj hu
        rw [← hm]
        exact hb m hbe
  refine ⟨?_, hbest, ?_, ?_, fun rm => rfl⟩
  · unfold TestFish.searchRandom
    exact choice_ok_mem _ r h
  · intro u hu
    unfold TestFish.searchCapture at hu
    by_cases hl : (TestFish.captureList G b).length ≠ 0
    · rw [if_pos hl] at hu
      have hm := choice_mem _ r u hu
      rw [captureList_eq_filter] at hm
      exact (List.mem_filter.mp hm).1
    · rw [if_neg hl] at hu
      exact hbest u hu
  · rcases search_ok_mem_tied G b tl r (tiedSet_ne_nil G b tl h) with ⟨u, hu, hmem⟩
    rcases tiedSet_mem G b tl u hmem with ⟨m, hm, he⟩
    refine ⟨u, hu, ?_⟩
    rw [he]
    exact hm

/-- Witness for C8 on `c8Game`. -/
theorem strategies_return_legal_witness :
    (∃ u, TestFish.searchRandom c8Game ⟨0, []⟩ 0 = .ok u ∧ u ∈ c8Game.legalMoves 0) ∧
    (∀ u, TestFish.searchBest c8Game ⟨0, []⟩ = .ok u → u ∈ c8Game.legalMoves 0) ∧
    (∀ u, TestFish.searchCapture c8Game ⟨0, []⟩ 0 = .ok u → u ∈ c8Game.legalMoves 0) ∧
    (∃ u, WorstFish.search c8Game ⟨0, []⟩ .limit 0 = .ok u ∧ u.mv ∈ c8Game.legalMoves 0) ∧
    (∀ rm, WorstFish.searchR c8Game ⟨0, []⟩ .limit 0 rm =
      WorstFish.search c8Game ⟨0, []⟩ .limit 0) :=
  strategies_return_legal c8Game ⟨0, []⟩ .limit 0 (by decide)
    (fun m hm => by
      have hsome : (some 0 : Option Move) = some m := hm
      rw [← Option.some.inj hsome]
      decide)

/-- A concrete oracle with a single legal move. -/
def c9Game : Game ℤ where
  legalMoves := fun _ => [0]
  isCapture := fun _ _ => false
  applyMove := fun p m => p + m + 1
  isCheck := fun _ => false
  engineEval := fun _ _ => 0
  engineBest := fun _ => some 0

/-- C9, evaluated at the failing inputs: with a clock budget of 100 ms and
one legal move the per-move slice is 0.01 s, so `evaluate` hands the engine a
time limit of exactly 0; with a clock budget of 0 ms the slice itself is 0
and the engine limit is -0.01.  No clamping, rejection or
`TimeBudgetExhausted` failure happens: the selection still returns a move. -/
theorem zero_engine_limit :
    searchTimeFor (.clock 100) 1 = 1/100 ∧
    analyseLimit (searchTimeFor (.clock 100) 1) = 0 ∧
    searchTimeFor (.clock 0) 1 = 0 ∧
    analyseLimit (searchTimeFor (.clock 0) 1) = -(1/100) ∧
    WorstFish.search c9Game ⟨0, []⟩ (.clock 100) 0 = .ok ⟨0, false, false⟩ := by
  have h1 : searchTimeFor (.clock 100) 1 = 1/100 := by
    unfold searchTimeFor
    dsimp only
    rw [if_pos (by norm_num)]
    norm_num
  have h3 : searchTimeFor (.clock 0) 1 = 0 := by
    unfold searchTimeFor
    dsimp only
    rw [if_pos (by norm_num)]
    norm_num
  refine ⟨h1, by rw [h1]; norm_num [analyseLimit], h3, by rw [h3]; norm_num [analyseLimit], ?_⟩
  rfl

/-- C10: a tied move that is both a capture and a check lands in the captures
bucket (the `isCapture` test runs before the `isCheck` test) and not in the
checks bucket; and whenever the selector returns a capture, every move of the
tied set is a capture — so a capture-and-check move can only be returned when
the whole tied set consists of captures. -/
theorem capture_check_bucket [LinearOrder α] (G : Game α) (b : Board) (tl : TimeLeft) (r : Nat)
    (u : Tagged) (hu : WorstFish.search G b tl r = .ok u) (hcap : u.isCapture = true) :
    (∀ tg ∈ tiedSet G b tl, tg.isCapture = true → tg.isCheck = true →
      tg ∈ (buckets (tiedSet G b tl)).1 ∧ tg ∉ (buckets (tiedSet G b tl)).2.1) ∧
    (∀ tg ∈ tiedSet G b tl, tg.isCapture = true) := by
  constructor
  · intro tg htg hc hk
    rw [buckets_eq]
    constructor
    · exact List.mem_filter.mpr ⟨htg, hc⟩
    · intro hmem
      have hh := (List.mem_filter.mp hmem).2
      simp [hc] at hh
  · intro tg htg
    rw [search_eq_pick] at hu
    unfold pickWorst at hu
    by_cases h3 : ((tiedSet G b tl).filter (fun t => !t.isCapture && !t.isCheck)).length ≠ 0
    · rw [if_pos h3] at hu
      have hm := choice_mem _ r u hu
      have hh := (List.mem_filter.mp hm).2
      simp [hcap] at hh
    · rw [if_neg h3] at hu
      by_cases h2 : ((tiedSet G b tl).filter (fun t => !t.isCapture && t.isCheck)).length ≠ 0
      · rw [if_pos h2] at hu
        have hm := choice_mem _ r u hu
        have hh := (List.mem_filter.mp hm).2
        simp [hcap] at hh
      · have hf3 : (tiedSet G b tl).filter (fun t => !t.isCapture && !t.isCheck) = [] :=
          List.length_eq_zero.mp (not_ne_iff.mp h3)
        have hf2 : (tiedSet G b tl).filter (fun t => !t.isCapture && t.isCheck) = [] :=
          List.length_eq_zero.mp (not_ne_iff.mp h2)
        cases hcc : tg.isCapture with
        | true => rfl
        | false =>
            cases hk : tg.isCheck with
            | true =>
                have hmem : tg ∈ (tiedSet G b tl).filter (fun t => !t.isCapture && t.isCheck) :=
                  List.mem_filter.mpr ⟨htg, by simp [hcc, hk]⟩
                rw [hf2] at hmem
                exact absurd hmem (List.not_mem_nil tg)
            | false =>
                have hmem : tg ∈ (tiedSet G b tl).filter (fun t => !t.isCapture && !t.isCheck) :=
                  List.mem_filter.mpr ⟨htg, by simp [hcc, hk]⟩
                rw [hf3] at hmem
                exact absurd hmem (List.not_mem_nil tg)

/-- A concrete oracle with two tied captures, one of which also gives check. -/
def c10Game : Game ℤ where
  legalMoves := fun _ => [0, 1]
  isCapture := fun _ _ => true
  applyMove := fun p m => p + m + 1
  isCheck := fun p => p == 1
  engineEval := fun _ _ => 0
  engineBest := fun _ => some 0

/-- Witness for C10 on `c10Game`: the returned move `⟨0, true, true⟩` is a
capture and a check, and indeed every tied move is a capture. -/
theorem capture_check_bucket_witness :
    (∀ tg ∈ tiedSet c10Game ⟨0, []⟩ .limit, tg.isCapture = true → tg.isCheck = true →
      tg ∈ (buckets (tiedSet c10Game ⟨0, []⟩ .limit)).1 ∧
      tg ∉ (buckets (tiedSet c10Game ⟨0, []⟩ .limit)).2.1) ∧
    (∀ tg ∈ tiedSet c10Game ⟨0, []⟩ .limit, tg.isCapture = true) :=
  capture_check_bucket c10Game ⟨0, []⟩ .limit 0 ⟨0, true, true⟩ (by decide) rfl
